import Mathlib

/-!
Verification of the domino pip counter (`app.js`).

The development shallowly embeds the three core components of the program:

* the contour/shape filter of `analyzeFrame` (app.js lines 239-257),
* the DBSCAN-light clusterer `dbscan` (app.js lines 327-391) with its
  helper `regionQuery` and the JS `Set`-based frontier expansion,
* the per-tile summary (app.js lines 261-275) and the padded bounding box
  of `drawOverlay` (app.js lines 298-316).

Coordinates and parameters are embedded as rationals (exact arithmetic;
none of the verified properties depends on float rounding).  Where the
program's behaviour on the IEEE special values `NaN` and `Infinity` is
itself the subject of a property (the candidate filter, the bounding-box
fold that starts from `Infinity`), we use `JSNum`, a rational extended
with the three special values and IEEE comparison rules (signed zero is
not modelled; no property here depends on it).
-/

namespace Domino

/-- A JS number for the parts of the program where `NaN`/`Infinity`
behaviour matters: a rational or one of the IEEE special values. -/
inductive JSNum where
  | num (q : ℚ)
  | nan
  | inf
  | ninf
deriving DecidableEq

/-- IEEE `<=` on JS numbers: any comparison with `NaN` is false. -/
def jsLe : JSNum → JSNum → Bool
  | .nan, _ => false
  | _, .nan => false
  | .ninf, _ => true
  | _, .ninf => false
  | _, .inf => true
  | .inf, _ => false
  | .num a, .num b => decide (a ≤ b)

/-- IEEE `<` on JS numbers: any comparison with `NaN` is false. -/
def jsLt : JSNum → JSNum → Bool
  | .nan, _ => false
  | _, .nan => false
  | _, .ninf => false
  | .ninf, _ => true
  | .inf, _ => false
  | _, .inf => true
  | .num a, .num b => decide (a < b)

/-- IEEE `>=`, as used by `area >= MIN_AREA`. -/
def jsGe (a b : JSNum) : Bool := jsLe b a

/-- IEEE `>`, as used by `ratio > 0.5`. -/
def jsGt (a b : JSNum) : Bool := jsLt b a

/-- JS division, as used by `rect.width / rect.height`.  Signed zero is
not modelled: division of a nonzero value by zero takes the sign of the
numerator, matching JS division by `+0`. -/
def jsDiv : JSNum → JSNum → JSNum
  | .nan, _ => .nan
  | _, .nan => .nan
  | .num a, .num b =>
      if b = 0 then (if a = 0 then .nan else if 0 < a then .inf else .ninf)
      else .num (a / b)
  | .num _, .inf => .num 0
  | .num _, .ninf => .num 0
  | .inf, .num b => if b < 0 then .ninf else .inf
  | .ninf, .num b => if b < 0 then .inf else .ninf
  | .inf, _ => .nan
  | .ninf, _ => .nan

/-- Math.min: propagates `NaN`, otherwise the smaller argument. -/
def jsMin : JSNum → JSNum → JSNum
  | .nan, _ => .nan
  | _, .nan => .nan
  | .ninf, _ => .ninf
  | _, .ninf => .ninf
  | .inf, b => b
  | a, .inf => a
  | .num a, .num b => .num (min a b)

/-- Math.max: propagates `NaN`, otherwise the larger argument. -/
def jsMax : JSNum → JSNum → JSNum
  | .nan, _ => .nan
  | _, .nan => .nan
  | .inf, _ => .inf
  | _, .inf => .inf
  | .ninf, b => b
  | a, .ninf => a
  | .num a, .num b => .num (max a b)

/-- JS unary negation on numbers. -/
def jsNeg : JSNum → JSNum
  | .num a => .num (-a)
  | .nan => .nan
  | .inf => .ninf
  | .ninf => .inf

/-- JS addition restricted to the cases arising here (`maxx += pad`). -/
def jsAdd : JSNum → JSNum → JSNum
  | .nan, _ => .nan
  | _, .nan => .nan
  | .inf, .ninf => .nan
  | .ninf, .inf => .nan
  | .inf, _ => .inf
  | _, .inf => .inf
  | .ninf, _ => .ninf
  | _, .ninf => .ninf
  | .num a, .num b => .num (a + b)

/-- JS subtraction (`minx -= pad`), via negation. -/
def jsSub (a b : JSNum) : JSNum := jsAdd a (jsNeg b)

/-! ## The observation filter (analyzeFrame, app.js lines 239-257)

A raw contour candidate, as consumed by step 6 of `analyzeFrame`: the
contour area (`cv.contourArea`), the bounding-rect width and height
(`cv.boundingRect`), and the minimum enclosing circle's centre and
radius (`cv.minEnclosingCircle`). -/
structure Candidate where
  area : JSNum
  width : JSNum
  height : JSNum
  cx : JSNum
  cy : JSNum
  r : JSNum
deriving DecidableEq

/-- The acceptance test of app.js lines 243-247:
`area >= MIN_AREA && area <= MAX_AREA` and then
`ratio > 0.5 && ratio < 2.0` with `ratio = rect.width / rect.height`. -/
def acceptCandidate (minArea maxArea : JSNum) (c : Candidate) : Bool :=
  (jsGe c.area minArea && jsLe c.area maxArea) &&
    (jsGt (jsDiv c.width c.height) (.num (1/2)) &&
      jsLt (jsDiv c.width c.height) (.num 2))

/-- A dot observation as pushed by app.js line 252:
`{ x: center.x, y: center.y, r: radius }`. -/
structure JDot where
  x : JSNum
  y : JSNum
  r : JSNum
deriving DecidableEq

/-- The emitted dot list of `analyzeFrame` step 6: every accepted
candidate contributes its enclosing-circle centre and radius. -/
def filterDots (minArea maxArea : JSNum) (cands : List Candidate) : List JDot :=
  (cands.filter (acceptCandidate minArea maxArea)).map
    (fun c => { x := c.cx, y := c.cy, r := c.r })

/-! ## The clusterer (dbscan, app.js lines 327-391) -/

/-- A dot observation `{x, y, r}` with exact coordinates, as consumed by
`dbscan` and `drawOverlay`. -/
structure Pt where
  x : ℚ
  y : ℚ
  r : ℚ
deriving DecidableEq

/-- Array indexing `points[i]` (total, with an irrelevant default). -/
def nth (l : List Pt) (i : ℕ) : Pt := l.getD i ⟨0, 0, 0⟩

/-- The squared Euclidean distance `dx*dx + dy*dy` of app.js line 341. -/
def sqDist (p q : Pt) : ℚ :=
  (p.x - q.x) * (p.x - q.x) + (p.y - q.y) * (p.y - q.y)

/-- The neighbour query `regionQuery` (app.js lines 335-344): all indices `j` whose point
lies within squared distance `eps*eps` of point `i`, in ascending
order. -/
def regionQuery (points : List Pt) (eps : ℚ) (i : ℕ) : List ℕ :=
  (List.range points.length).filter
    (fun j => decide (sqDist (nth points i) (nth points j) ≤ eps * eps))

/-- The label state of a point in `dbscan`: the JS code uses
`undefined`, `-1` (noise) and a non-negative cluster id. -/
inductive Label where
  | undef
  | noise
  | cluster (c : ℕ)
deriving DecidableEq

/-- The mutable per-run state of `dbscan`: the `visited` array, the
`labels` array and the cluster-id counter `C`. -/
structure DState where
  visited : ℕ → Bool
  labels : ℕ → Label
  C : ℕ

/-- Pointwise array update (`a[i] = v`). -/
def updF {α : Type} (f : ℕ → α) (i : ℕ) (v : α) : ℕ → α :=
  fun j => if j = i then v else f j

/-- Marks `visited[n] = true`. -/
def markVisited (st : DState) (n : ℕ) : DState :=
  { st with visited := updF st.visited n true }

/-- App.js lines 371-373: `if (labels[n] === undefined || labels[n] === -1)
labels[n] = clusterIdx`. -/
def relabel (st : DState) (n : ℕ) (clusterIdx : ℕ) : DState :=
  if st.labels n = Label.undef ∨ st.labels n = Label.noise then
    { st with labels := updF st.labels n (Label.cluster clusterIdx) }
  else st

/-- Adding `seeds.add(x)` on a JS `Set` mid-iteration: the pair is the set's
full membership list (`seen`) and the not-yet-iterated tail (`pending`);
an element already present is a no-op, a new one is appended to both. -/
def addSeed (sp : List ℕ × List ℕ) (x : ℕ) : List ℕ × List ℕ :=
  if x ∈ sp.1 then sp else (sp.1 ++ [x], sp.2 ++ [x])

/-- Bulk add `nbs2.forEach(x => seeds.add(x))` (app.js line 368). -/
def addSeeds (sp : List ℕ × List ℕ) (xs : List ℕ) : List ℕ × List ℕ :=
  xs.foldl addSeed sp

/-- The frontier-expansion loop `for (const n of seeds)` of app.js lines
363-374.  JS `Set` iteration visits insertion order and also visits
elements inserted during the iteration, so the loop is driven by the
`pending` list; `fuel` bounds the number of iterations (the caller
passes `2 * N + 1`, which exceeds the worst case: each iteration pops
one pending element, and at most `N` elements are ever appended since
an append requires a fresh index below `N`). -/
def expand (points : List Pt) (eps : ℚ) (minPts : ℕ) (clusterIdx : ℕ) :
    ℕ → List ℕ → List ℕ → DState → DState
  | 0, _, _, st => st
  | _ + 1, _, [], st => st
  | fuel + 1, seen, n :: rest, st =>
      if st.visited n then
        expand points eps minPts clusterIdx fuel seen rest (relabel st n clusterIdx)
      else
        let st1 := markVisited st n
        let nbs2 := regionQuery points eps n
        if minPts ≤ nbs2.length then
          let sp := addSeeds (seen, rest) nbs2
          expand points eps minPts clusterIdx fuel sp.1 sp.2 (relabel st1 n clusterIdx)
        else
          expand points eps minPts clusterIdx fuel seen rest (relabel st1 n clusterIdx)

/-- The main loop of `dbscan` (app.js lines 346-375), iterating the
point indices in input order. -/
def dbscanLoop (points : List Pt) (eps : ℚ) (minPts : ℕ) :
    List ℕ → DState → DState
  | [], st => st
  | i :: rest, st =>
      if st.visited i then dbscanLoop points eps minPts rest st
      else
        let st1 := markVisited st i
        let neighbors := regionQuery points eps i
        if neighbors.length < minPts then
          dbscanLoop points eps minPts rest
            { st1 with labels := updF st1.labels i Label.noise }
        else
          let clusterIdx := st1.C
          let st2 : DState :=
            { st1 with labels := updF st1.labels i (Label.cluster clusterIdx),
                       C := st1.C + 1 }
          let sp := addSeeds ([], []) neighbors
          let st3 := expand points eps minPts clusterIdx (2 * points.length + 1)
            (sp.1.erase i) (sp.2.erase i) st2
          dbscanLoop points eps minPts rest st3

/-- The initial state: no point visited, all labels `undefined`, `C = 0`. -/
def initState : DState :=
  { visited := fun _ => false, labels := fun _ => Label.undef, C := 0 }

/-- The state of `dbscan` after its main loop. -/
def dbscanState (points : List Pt) (eps : ℚ) (minPts : ℕ) : DState :=
  dbscanLoop points eps minPts (List.range points.length) initState

/-- One step of the label-to-cluster-list conversion (app.js lines
381-389): a point labelled with a cluster id is pushed onto that
cluster's list; an `undefined` or noise point is appended as its own
singleton cluster. -/
def clusterStep (points : List Pt) (labels : ℕ → Label)
    (clusters : List (List Pt)) (i : ℕ) : List (List Pt) :=
  match labels i with
  | Label.undef => clusters ++ [[nth points i]]
  | Label.noise => clusters ++ [[nth points i]]
  | Label.cluster lab => clusters.set lab (clusters.getD lab [] ++ [nth points i])

/-- The conversion loop of app.js lines 377-389: start from `C` empty
cluster lists and distribute every point by its label. -/
def buildClusters (points : List Pt) (labels : ℕ → Label) (C : ℕ) :
    List (List Pt) :=
  (List.range points.length).foldl (clusterStep points labels) (List.replicate C [])

/-- The clusterer `dbscan` (app.js lines 327-391): run the main loop, convert labels
to cluster lists, and drop empty lists (line 390). -/
def dbscan (points : List Pt) (eps : ℚ) (minPts : ℕ) : List (List Pt) :=
  (buildClusters points (dbscanState points eps minPts).labels
      (dbscanState points eps minPts).C).filter
    (fun arr => decide (0 < arr.length))

/-! ## The frame summary (analyzeFrame, app.js lines 261-275) -/

/-- The summary returned by `analyzeFrame`: `{ total, clusters: perTile }`
(the elapsed-time field is wall-clock time and is not modelled). -/
structure FrameResult where
  total : ℕ
  clusters : List ℕ
deriving DecidableEq

/-- App.js lines 273-275: `perTile = clusters.map(c => c.length)`,
`total = dots.length`. -/
def frameSummary (dots : List Pt) (eps : ℚ) (minPts : ℕ) : FrameResult :=
  { total := dots.length, clusters := (dbscan dots eps minPts).map List.length }

/-! ## The overlay bounding box (drawOverlay, app.js lines 298-316) -/

/-- The per-tile box drawn by `drawOverlay`. -/
structure JBox where
  minx : JSNum
  miny : JSNum
  maxx : JSNum
  maxy : JSNum
deriving DecidableEq

/-- One member's contribution to the box (app.js lines 301-306):
`minx = Math.min(minx, p.x - p.r)` and so on for the four sides. -/
def bboxStep (b : JBox) (p : Pt) : JBox :=
  { minx := jsMin b.minx (.num (p.x - p.r)),
    miny := jsMin b.miny (.num (p.y - p.r)),
    maxx := jsMax b.maxx (.num (p.x + p.r)),
    maxy := jsMax b.maxy (.num (p.y + p.r)) }

/-- The bounding-box computation of app.js lines 300-308: fold
`Math.min`/`Math.max` over the members' circles starting from
`±Infinity`, then pad by 10 pixels on every side. -/
def tileBBox (cluster : List Pt) : JBox :=
  let b := cluster.foldl bboxStep
    { minx := JSNum.inf, miny := JSNum.inf, maxx := JSNum.ninf, maxy := JSNum.ninf }
  { minx := jsSub b.minx (.num 10), miny := jsSub b.miny (.num 10),
    maxx := jsAdd b.maxx (.num 10), maxy := jsAdd b.maxy (.num 10) }

/-- The pip count displayed for a tile (app.js line 316 and line 273):
the number of members of the cluster. -/
def tilePipCount (cluster : List Pt) : ℕ := cluster.length

/-! ## Basic facts about the JS number model -/

lemma jsLe_num_num (a b : ℚ) : jsLe (.num a) (.num b) = decide (a ≤ b) := rfl

lemma jsLt_num_num (a b : ℚ) : jsLt (.num a) (.num b) = decide (a < b) := rfl

lemma jsLe_nan_right (a : JSNum) : jsLe a .nan = false := by cases a <;> rfl

lemma jsLt_nan_right (a : JSNum) : jsLt a .nan = false := by cases a <;> rfl

lemma jsLe_nan_left (b : JSNum) : jsLe .nan b = false := by cases b <;> rfl

lemma jsLt_nan_left (b : JSNum) : jsLt .nan b = false := by cases b <;> rfl

lemma jsDiv_num_num (a b : ℚ) (hb : b ≠ 0) :
    jsDiv (.num a) (.num b) = .num (a / b) := by
  simp [jsDiv, hb]

lemma jsMin_inf_left (b : JSNum) : jsMin .inf b = b := by cases b <;> rfl

lemma jsMax_ninf_left (b : JSNum) : jsMax .ninf b = b := by cases b <;> rfl

lemma jsMin_num_num (a b : ℚ) : jsMin (.num a) (.num b) = .num (min a b) := rfl

lemma jsMax_num_num (a b : ℚ) : jsMax (.num a) (.num b) = .num (max a b) := rfl

lemma jsSub_num_num (a b : ℚ) : jsSub (.num a) (.num b) = .num (a - b) := by
  simp [jsSub, jsAdd, jsNeg, sub_eq_add_neg]

lemma jsAdd_num_num (a b : ℚ) : jsAdd (.num a) (.num b) = .num (a + b) := rfl

/-! ## Claim theorems: the neighbour query (C3) -/

/-- Claim C3: in the clusterer's neighbour query, two points whose
Euclidean distance is exactly `eps` (that is, whose squared distance is
`eps * eps`) are neighbours — the boundary is inclusive, compared as
`d² ≤ eps²` — and for every `ε > 0`, two points at distance `eps + ε`
(squared distance `(eps + ε)²`) are not neighbours. -/
theorem regionQuery_eps_boundary (points : List Pt) (eps : ℚ) (i j : ℕ)
    (hj : j < points.length) (heps : 0 ≤ eps) :
    (sqDist (nth points i) (nth points j) = eps * eps →
      j ∈ regionQuery points eps i) ∧
    (∀ ε : ℚ, 0 < ε →
      sqDist (nth points i) (nth points j) = (eps + ε) * (eps + ε) →
      j ∉ regionQuery points eps i) := by
  constructor
  · intro hd
    simp only [regionQuery, List.mem_filter, List.mem_range, decide_eq_true_iff]
    exact ⟨hj, le_of_eq hd⟩
  · intro ε hε hd hmem
    simp only [regionQuery, List.mem_filter, List.mem_range, decide_eq_true_iff] at hmem
    nlinarith [hmem.2]

theorem regionQuery_eps_boundary_witness :
    1 ∈ regionQuery [⟨0,0,5⟩, ⟨6,8,5⟩] 10 0 ∧
      1 ∉ regionQuery [⟨0,0,5⟩, ⟨6,8,5⟩] 5 0 := by
  constructor
  · exact (regionQuery_eps_boundary [⟨0,0,5⟩, ⟨6,8,5⟩] 10 0 1 (by norm_num)
      (by norm_num)).1 (by with_unfolding_all decide)
  · exact (regionQuery_eps_boundary [⟨0,0,5⟩, ⟨6,8,5⟩] 5 0 1 (by norm_num)
      (by norm_num)).2 5 (by norm_num) (by with_unfolding_all decide)

/-! ## Claim theorems: the observation filter (C4) -/

/-- Claim C4: the observation filter accepts a candidate exactly when
`minArea ≤ area ≤ maxArea` (inclusive bounds) and
`0.5 < width/height < 2.0` (strict bounds). -/
theorem acceptCandidate_iff (minA maxA area w h cx cy r : ℚ) (hh : 0 < h) :
    acceptCandidate (.num minA) (.num maxA)
        ⟨.num area, .num w, .num h, .num cx, .num cy, .num r⟩ = true ↔
      (minA ≤ area ∧ area ≤ maxA ∧ 1/2 < w / h ∧ w / h < 2) := by
  simp only [acceptCandidate, jsGe, jsGt, jsDiv_num_num w h hh.ne',
    jsLe_num_num, jsLt_num_num, Bool.and_eq_true, decide_eq_true_iff]
  tauto

theorem acceptCandidate_iff_witness :
    acceptCandidate (.num 30) (.num 5000)
        ⟨.num 30, .num 10, .num 10, .num 1, .num 2, .num 3⟩ = true ∧
      acceptCandidate (.num 30) (.num 5000)
        ⟨.num 5000, .num 10, .num 10, .num 1, .num 2, .num 3⟩ = true ∧
      acceptCandidate (.num 30) (.num 5000)
        ⟨.num 100, .num 1, .num 2, .num 1, .num 2, .num 3⟩ = false := by
  refine ⟨?_, ?_, ?_⟩
  · exact (acceptCandidate_iff 30 5000 30 10 10 1 2 3 (by norm_num)).mpr (by norm_num)
  · exact (acceptCandidate_iff 30 5000 5000 10 10 1 2 3 (by norm_num)).mpr (by norm_num)
  · cases hb : acceptCandidate (.num 30) (.num 5000)
        ⟨.num 100, .num 1, .num 2, .num 1, .num 2, .num 3⟩ with
    | false => rfl
    | true =>
        exact absurd ((acceptCandidate_iff 30 5000 100 1 2 1 2 3 (by norm_num)).mp hb)
          (by norm_num)

/-! ## Claim theorems: scenario A (C2) -/

/-- Claim C2: on the three dots at `(0,0)`, `(5,0)`, `(100,100)` with
radius 5, `eps = 10` and `minPts = 1`, the clusterer returns the two
tiles `{(0,0),(5,0)}` and `{(100,100)}`, so the reported per-tile counts
are `[2, 1]` and `totalDots` is 3. -/
theorem dbscan_scenarioA :
    dbscan [⟨0,0,5⟩, ⟨5,0,5⟩, ⟨100,100,5⟩] 10 1
        = [[⟨0,0,5⟩, ⟨5,0,5⟩], [⟨100,100,5⟩]] ∧
      frameSummary [⟨0,0,5⟩, ⟨5,0,5⟩, ⟨100,100,5⟩] 10 1 = ⟨3, [2, 1]⟩ := by
  with_unfolding_all decide

/-! ## Negative eps (C8): no validation anywhere in the pipeline -/

/-- Counterexample to claim C8: the pipeline happily runs clustering
with `eps = -10` — nothing rejects, clamps or errors on a negative eps;
the two nearby dots are even clustered together, because the neighbour
test squares `eps`. -/
theorem negative_eps_still_clusters :
    dbscan [⟨0,0,5⟩, ⟨5,0,5⟩] (-10) 1 = [[⟨0,0,5⟩, ⟨5,0,5⟩]] := by
  with_unfolding_all decide

lemma regionQuery_neg (points : List Pt) (eps : ℚ) :
    regionQuery points (-eps) = regionQuery points eps := by
  funext i
  simp [regionQuery, neg_mul_neg]

lemma expand_neg (points : List Pt) (eps : ℚ) (minPts clusterIdx : ℕ) :
    ∀ (fuel : ℕ) (seen pending : List ℕ) (st : DState),
      expand points (-eps) minPts clusterIdx fuel seen pending st
        = expand points eps minPts clusterIdx fuel seen pending st := by
  intro fuel
  induction fuel with
  | zero => intro seen pending st; rfl
  | succ fuel ih =>
      intro seen pending st
      cases pending with
      | nil => rfl
      | cons n rest => simp [expand, regionQuery_neg, ih]

lemma dbscanLoop_neg (points : List Pt) (eps : ℚ) (minPts : ℕ) :
    ∀ (l : List ℕ) (st : DState),
      dbscanLoop points (-eps) minPts l st = dbscanLoop points eps minPts l st := by
  intro l
  induction l with
  | nil => intro st; rfl
  | cons i rest ih =>
      intro st
      simp [dbscanLoop, regionQuery_neg, expand_neg, ih]

/-- Claim C8, amended: no configuration-time rejection of a negative
`eps` exists; clustering runs with it, and since the neighbour test
compares squared distances, a negative `eps` behaves exactly like its
absolute value. -/
theorem dbscan_neg_eps (points : List Pt) (eps : ℚ) (minPts : ℕ) :
    dbscan points (-eps) minPts = dbscan points eps minPts := by
  simp [dbscan, dbscanState, dbscanLoop_neg]

/-! ## Non-finite candidate fields (C9) -/

/-- Counterexample to claim C9: a candidate whose centre x is `NaN` but
whose area and aspect ratio are in range is NOT filtered out — the
filter never looks at the coordinates, so the `NaN` flows into the
emitted dot list. -/
theorem nonfinite_center_passes_filter :
    filterDots (.num 30) (.num 5000)
        [⟨.num 100, .num 10, .num 10, .nan, .num 5, .num 3⟩]
      = [⟨.nan, .num 5, .num 3⟩] ∧
    (⟨.nan, .num 5, .num 3⟩ : JDot) ∈ filterDots (.num 30) (.num 5000)
        [⟨.num 100, .num 10, .num 10, .nan, .num 5, .num 3⟩] := by
  with_unfolding_all decide

/-- Claim C9, amended: the filter decides on area and aspect ratio
only.  A candidate with a non-finite area, width or height is silently
rejected (every IEEE comparison with `NaN` is false, and an infinite
area or degenerate ratio fails the range checks against the finite
configured bounds), but the centre coordinates and radius are never
examined: changing them never changes acceptance, so non-finite
coordinates pass through to the emitted observation list. -/
lemma areaCheck_nonfinite (minA maxA : ℚ) (a : JSNum)
    (ha : a = .nan ∨ a = .inf ∨ a = .ninf) :
    (jsGe a (.num minA) && jsLe a (.num maxA)) = false := by
  rcases ha with rfl | rfl | rfl <;> rfl

lemma ratioCheck_nonfinite (w h : JSNum)
    (hwh : w = .nan ∨ w = .inf ∨ w = .ninf ∨
      h = .nan ∨ h = .inf ∨ h = .ninf) :
    (jsGt (jsDiv w h) (.num (1/2)) && jsLt (jsDiv w h) (.num 2)) = false := by
  have hzero : jsLt (.num (1/2)) (.num 0) = false := by
    rw [jsLt_num_num]
    norm_num
  rcases hwh with rfl | rfl | rfl | rfl | rfl | rfl
  · cases h <;> rfl
  · cases h with
    | num b =>
        rcases lt_or_le b 0 with hb | hb
        · have : jsDiv .inf (.num b) = .ninf := by rw [show jsDiv .inf (.num b)
            = if b < 0 then .ninf else .inf from rfl, if_pos hb]
          rw [this]; rfl
        · have : jsDiv .inf (.num b) = .inf := by rw [show jsDiv .inf (.num b)
            = if b < 0 then .ninf else .inf from rfl, if_neg (not_lt.mpr hb)]
          rw [this]; rfl
    | nan => rfl
    | inf => rfl
    | ninf => rfl
  · cases h with
    | num b =>
        rcases lt_or_le b 0 with hb | hb
        · have : jsDiv .ninf (.num b) = .inf := by rw [show jsDiv .ninf (.num b)
            = if b < 0 then .inf else .ninf from rfl, if_pos hb]
          rw [this]; rfl
        · have : jsDiv .ninf (.num b) = .ninf := by rw [show jsDiv .ninf (.num b)
            = if b < 0 then .inf else .ninf from rfl, if_neg (not_lt.mpr hb)]
          rw [this]; rfl
    | nan => rfl
    | inf => rfl
    | ninf => rfl
  · cases w <;> rfl
  · cases w with
    | num a =>
        rw [show jsDiv (.num a) .inf = .num 0 from rfl, jsGt,
          hzero, Bool.false_and]
    | nan => rfl
    | inf => rfl
    | ninf => rfl
  · cases w with
    | num a =>
        rw [show jsDiv (.num a) .ninf = .num 0 from rfl, jsGt,
          hzero, Bool.false_and]
    | nan => rfl
    | inf => rfl
    | ninf => rfl

theorem acceptCandidate_ignores_center (minA maxA : ℚ) (c : Candidate)
    (hnf : c.area = .nan ∨ c.area = .inf ∨ c.area = .ninf ∨
      c.width = .nan ∨ c.width = .inf ∨ c.width = .ninf ∨
      c.height = .nan ∨ c.height = .inf ∨ c.height = .ninf) :
    acceptCandidate (.num minA) (.num maxA) c = false ∧
      ∀ x y r, acceptCandidate (.num minA) (.num maxA)
        { c with cx := x, cy := y, r := r }
          = acceptCandidate (.num minA) (.num maxA) c := by
  refine ⟨?_, fun x y r => rfl⟩
  unfold acceptCandidate
  rcases hnf with h | h | h | h | h | h | h | h | h
  · rw [areaCheck_nonfinite minA maxA _ (Or.inl h), Bool.false_and]
  · rw [areaCheck_nonfinite minA maxA _ (Or.inr (Or.inl h)), Bool.false_and]
  · rw [areaCheck_nonfinite minA maxA _ (Or.inr (Or.inr h)), Bool.false_and]
  · rw [ratioCheck_nonfinite _ _ (Or.inl h), Bool.and_false]
  · rw [ratioCheck_nonfinite _ _ (Or.inr (Or.inl h)), Bool.and_false]
  · rw [ratioCheck_nonfinite _ _ (Or.inr (Or.inr (Or.inl h))), Bool.and_false]
  · rw [ratioCheck_nonfinite _ _ (Or.inr (Or.inr (Or.inr (Or.inl h)))), Bool.and_false]
  · rw [ratioCheck_nonfinite _ _ (Or.inr (Or.inr (Or.inr (Or.inr (Or.inl h))))),
      Bool.and_false]
  · rw [ratioCheck_nonfinite _ _ (Or.inr (Or.inr (Or.inr (Or.inr (Or.inr h))))),
      Bool.and_false]

theorem acceptCandidate_ignores_center_witness :
    (⟨.nan, .num 10, .num 10, .num 1, .num 5, .num 3⟩ : Candidate).area = .nan ∧
      (acceptCandidate (.num 30) (.num 5000)
          ⟨.nan, .num 10, .num 10, .num 1, .num 5, .num 3⟩ = false ∧
        ∀ x y r, acceptCandidate (.num 30) (.num 5000)
          { (⟨.nan, .num 10, .num 10, .num 1, .num 5, .num 3⟩ : Candidate) with
              cx := x, cy := y, r := r }
            = acceptCandidate (.num 30) (.num 5000)
              ⟨.nan, .num 10, .num 10, .num 1, .num 5, .num 3⟩) :=
  ⟨rfl, acceptCandidate_ignores_center 30 5000
    ⟨.nan, .num 10, .num 10, .num 1, .num 5, .num 3⟩ (Or.inl rfl)⟩

/-! ## The padded bounding box (C7) -/

/-- Spec-side definition (§4.3 of the spec): the least entry of a list
of rationals; meaningful for nonempty lists (`min(x - r)` over a tile's
members). -/
def specMin (l : List ℚ) : ℚ := l.foldl min (l.headD 0)

/-- Spec-side definition (§4.3 of the spec): the greatest entry of a
list of rationals; meaningful for nonempty lists. -/
def specMax (l : List ℚ) : ℚ := l.foldl max (l.headD 0)

lemma specMin_map (f : Pt → ℚ) (p : Pt) (t : List Pt) :
    specMin ((p :: t).map f) = t.foldl (fun m q => min m (f q)) (f p) := by
  simp [specMin, min_self, List.foldl_map]

lemma specMax_map (f : Pt → ℚ) (p : Pt) (t : List Pt) :
    specMax ((p :: t).map f) = t.foldl (fun m q => max m (f q)) (f p) := by
  simp [specMax, max_self, List.foldl_map]

lemma foldl_bboxStep_minx (l : List Pt) : ∀ b : JBox,
    (l.foldl bboxStep b).minx
      = l.foldl (fun m q => jsMin m (.num (q.x - q.r))) b.minx := by
  induction l with
  | nil => intro b; rfl
  | cons p t ih => intro b; simpa [bboxStep] using ih (bboxStep b p)

lemma foldl_bboxStep_miny (l : List Pt) : ∀ b : JBox,
    (l.foldl bboxStep b).miny
      = l.foldl (fun m q => jsMin m (.num (q.y - q.r))) b.miny := by
  induction l with
  | nil => intro b; rfl
  | cons p t ih => intro b; simpa [bboxStep] using ih (bboxStep b p)

lemma foldl_bboxStep_maxx (l : List Pt) : ∀ b : JBox,
    (l.foldl bboxStep b).maxx
      = l.foldl (fun m q => jsMax m (.num (q.x + q.r))) b.maxx := by
  induction l with
  | nil => intro b; rfl
  | cons p t ih => intro b; simpa [bboxStep] using ih (bboxStep b p)

lemma foldl_bboxStep_maxy (l : List Pt) : ∀ b : JBox,
    (l.foldl bboxStep b).maxy
      = l.foldl (fun m q => jsMax m (.num (q.y + q.r))) b.maxy := by
  induction l with
  | nil => intro b; rfl
  | cons p t ih => intro b; simpa [bboxStep] using ih (bboxStep b p)

lemma foldl_jsMin_num (f : Pt → ℚ) (l : List Pt) : ∀ a : ℚ,
    l.foldl (fun m q => jsMin m (.num (f q))) (.num a)
      = .num (l.foldl (fun m q => min m (f q)) a) := by
  induction l with
  | nil => intro a; rfl
  | cons p t ih => intro a; simpa [jsMin_num_num] using ih (min a (f p))

lemma foldl_jsMax_num (f : Pt → ℚ) (l : List Pt) : ∀ a : ℚ,
    l.foldl (fun m q => jsMax m (.num (f q))) (.num a)
      = .num (l.foldl (fun m q => max m (f q)) a) := by
  induction l with
  | nil => intro a; rfl
  | cons p t ih => intro a; simpa [jsMax_num_num] using ih (max a (f p))

/-- Claim C7: for every non-empty tile, the overlay's padded bounding
box is `min(x - r) - 10`, `min(y - r) - 10`, `max(x + r) + 10`,
`max(y + r) + 10` over the members (pad = 10 pixels), and the displayed
pip count is the number of members. -/
theorem tileBBox_spec (cluster : List Pt) (hne : cluster ≠ []) :
    tileBBox cluster =
      { minx := .num (specMin (cluster.map (fun p => p.x - p.r)) - 10),
        miny := .num (specMin (cluster.map (fun p => p.y - p.r)) - 10),
        maxx := .num (specMax (cluster.map (fun p => p.x + p.r)) + 10),
        maxy := .num (specMax (cluster.map (fun p => p.y + p.r)) + 10) } ∧
      tilePipCount cluster = cluster.length := by
  refine ⟨?_, rfl⟩
  obtain ⟨p, t, rfl⟩ := List.exists_cons_of_ne_nil hne
  show JBox.mk _ _ _ _ = JBox.mk _ _ _ _
  congr 1
  · rw [foldl_bboxStep_minx, List.foldl_cons, jsMin_inf_left,
      foldl_jsMin_num (fun q => q.x - q.r), jsSub_num_num,
      specMin_map (fun q => q.x - q.r)]
  · rw [foldl_bboxStep_miny, List.foldl_cons, jsMin_inf_left,
      foldl_jsMin_num (fun q => q.y - q.r), jsSub_num_num,
      specMin_map (fun q => q.y - q.r)]
  · rw [foldl_bboxStep_maxx, List.foldl_cons, jsMax_ninf_left,
      foldl_jsMax_num (fun q => q.x + q.r), jsAdd_num_num,
      specMax_map (fun q => q.x + q.r)]
  · rw [foldl_bboxStep_maxy, List.foldl_cons, jsMax_ninf_left,
      foldl_jsMax_num (fun q => q.y + q.r), jsAdd_num_num,
      specMax_map (fun q => q.y + q.r)]

theorem tileBBox_spec_witness :
    ([⟨0,0,5⟩, ⟨6,8,1⟩] : List Pt) ≠ [] ∧
      tileBBox [⟨0,0,5⟩, ⟨6,8,1⟩]
        = { minx := .num (specMin (([⟨0,0,5⟩, ⟨6,8,1⟩] : List Pt).map (fun p => p.x - p.r)) - 10),
            miny := .num (specMin (([⟨0,0,5⟩, ⟨6,8,1⟩] : List Pt).map (fun p => p.y - p.r)) - 10),
            maxx := .num (specMax (([⟨0,0,5⟩, ⟨6,8,1⟩] : List Pt).map (fun p => p.x + p.r)) + 10),
            maxy := .num (specMax (([⟨0,0,5⟩, ⟨6,8,1⟩] : List Pt).map (fun p => p.y + p.r)) + 10) } ∧
      tilePipCount [⟨0,0,5⟩, ⟨6,8,1⟩] = 2 :=
  ⟨by simp, (tileBBox_spec [⟨0,0,5⟩, ⟨6,8,1⟩] (by simp)).1,
    (tileBBox_spec [⟨0,0,5⟩, ⟨6,8,1⟩] (by simp)).2⟩

/-! ## State lemmas for the clusterer -/

lemma updF_self {α : Type} (f : ℕ → α) (i : ℕ) (v : α) : updF f i v i = v := by
  simp [updF]

lemma updF_ne {α : Type} (f : ℕ → α) {i j : ℕ} (v : α) (h : j ≠ i) :
    updF f i v j = f j := by
  simp [updF, h]

lemma relabel_C (st : DState) (n clusterIdx : ℕ) :
    (relabel st n clusterIdx).C = st.C := by
  unfold relabel; split <;> rfl

lemma relabel_visited (st : DState) (n clusterIdx : ℕ) :
    (relabel st n clusterIdx).visited = st.visited := by
  unfold relabel; split <;> rfl

lemma relabel_labels (st : DState) (n clusterIdx j : ℕ) :
    (relabel st n clusterIdx).labels j = st.labels j ∨
      (relabel st n clusterIdx).labels j = Label.cluster clusterIdx := by
  unfold relabel
  split
  · by_cases hj : j = n
    · subst hj; right; exact updF_self ..
    · left; exact updF_ne _ _ hj
  · left; rfl

lemma relabel_labels_self (st : DState) (n clusterIdx : ℕ) :
    ∃ c, (relabel st n clusterIdx).labels n = Label.cluster c := by
  unfold relabel
  split
  · exact ⟨clusterIdx, updF_self ..⟩
  · rename_i hcond
    rcases hl : st.labels n with _ | _ | c
    · exact absurd (Or.inl hl) hcond
    · exact absurd (Or.inr hl) hcond
    · exact ⟨c, rfl⟩

lemma relabel_labels_other (st : DState) (n clusterIdx j : ℕ) (hj : j ≠ n) :
    (relabel st n clusterIdx).labels j = st.labels j := by
  unfold relabel
  split
  · exact updF_ne _ _ hj
  · rfl

lemma expand_C (points : List Pt) (eps : ℚ) (minPts clusterIdx : ℕ) :
    ∀ (fuel : ℕ) (seen pending : List ℕ) (st : DState),
      (expand points eps minPts clusterIdx fuel seen pending st).C = st.C := by
  intro fuel
  induction fuel with
  | zero => intros; rfl
  | succ fuel ih =>
      intro seen pending st
      cases pending with
      | nil => rfl
      | cons n rest =>
          simp only [expand]
          split
          · rw [ih, relabel_C]
          · split
            · rw [ih, relabel_C]; rfl
            · rw [ih, relabel_C]; rfl

lemma expand_labels (points : List Pt) (eps : ℚ) (minPts clusterIdx : ℕ) :
    ∀ (fuel : ℕ) (seen pending : List ℕ) (st : DState) (j : ℕ),
      (expand points eps minPts clusterIdx fuel seen pending st).labels j
          = st.labels j ∨
        (expand points eps minPts clusterIdx fuel seen pending st).labels j
          = Label.cluster clusterIdx := by
  intro fuel
  induction fuel with
  | zero => intros; left; rfl
  | succ fuel ih =>
      intro seen pending st j
      cases pending with
      | nil => left; rfl
      | cons n rest =>
          simp only [expand]
          split
          · rcases ih seen rest (relabel st n clusterIdx) j with h | h
            · rcases relabel_labels st n clusterIdx j with h2 | h2
              · left; rw [h, h2]
              · right; rw [h, h2]
            · right; exact h
          · split
            · rcases ih _ _ (relabel (markVisited st n) n clusterIdx) j with h | h
              · rcases relabel_labels (markVisited st n) n clusterIdx j with h2 | h2
                · left; rw [h, h2]; rfl
                · right; rw [h, h2]
              · right; exact h
            · rcases ih seen rest (relabel (markVisited st n) n clusterIdx) j with h | h
              · rcases relabel_labels (markVisited st n) n clusterIdx j with h2 | h2
                · left; rw [h, h2]; rfl
                · right; rw [h, h2]
              · right; exact h

lemma expand_visited_mono (points : List Pt) (eps : ℚ) (minPts clusterIdx : ℕ) :
    ∀ (fuel : ℕ) (seen pending : List ℕ) (st : DState) (j : ℕ),
      st.visited j = true →
      (expand points eps minPts clusterIdx fuel seen pending st).visited j = true := by
  intro fuel
  induction fuel with
  | zero => intro _ _ _ _ h; exact h
  | succ fuel ih =>
      intro seen pending st j hv
      cases pending with
      | nil => exact hv
      | cons n rest =>
          simp only [expand]
          split
          · exact ih _ _ _ _ (by rw [relabel_visited]; exact hv)
          · have hv1 : (markVisited st n).visited j = true := by
              by_cases hj : j = n
              · subst hj; exact updF_self ..
              · show updF st.visited n true j = true
                rw [updF_ne _ _ hj]; exact hv
            split
            · exact ih _ _ _ _ (by rw [relabel_visited]; exact hv1)
            · exact ih _ _ _ _ (by rw [relabel_visited]; exact hv1)

/-- Every cluster label in the state is below the id counter `C`. -/
def LabBound (st : DState) : Prop :=
  ∀ j c, st.labels j = Label.cluster c → c < st.C

lemma expand_labBound (points : List Pt) (eps : ℚ) (minPts clusterIdx : ℕ)
    (fuel : ℕ) (seen pending : List ℕ) (st : DState)
    (hb : LabBound st) (hc : clusterIdx < st.C) :
    LabBound (expand points eps minPts clusterIdx fuel seen pending st) := by
  intro j c h
  rw [expand_C]
  rcases expand_labels points eps minPts clusterIdx fuel seen pending st j with h2 | h2
  · exact hb j c (h2 ▸ h)
  · rw [h2] at h
    cases h
    exact hc

lemma dbscanLoop_labBound (points : List Pt) (eps : ℚ) (minPts : ℕ) :
    ∀ (l : List ℕ) (st : DState), LabBound st →
      LabBound (dbscanLoop points eps minPts l st) := by
  intro l
  induction l with
  | nil => intro st h; exact h
  | cons i rest ih =>
      intro st hb
      simp only [dbscanLoop]
      split
      · exact ih st hb
      · split
        · apply ih
          intro j c h
          dsimp only [markVisited] at h
          by_cases hj : j = i
          · subst hj
            rw [updF_self] at h
            exact Label.noConfusion h
          · rw [updF_ne _ _ hj] at h
            exact hb j c h
        · apply ih
          apply expand_labBound
          · intro j c h
            dsimp only [markVisited] at h ⊢
            by_cases hj : j = i
            · subst hj
              rw [updF_self] at h
              cases h
              exact Nat.lt_succ_self _
            · rw [updF_ne _ _ hj] at h
              exact Nat.lt_succ_of_lt (hb j c h)
          · exact Nat.lt_succ_self _

lemma initState_labBound : LabBound initState := by
  intro j c h
  exact Label.noConfusion h

lemma dbscanState_labBound (points : List Pt) (eps : ℚ) (minPts : ℕ) :
    LabBound (dbscanState points eps minPts) :=
  dbscanLoop_labBound points eps minPts _ _ initState_labBound

/-! ## The partition property (C1) -/

lemma flatten_set_perm (p : Pt) :
    ∀ (L : List (List Pt)) (c : ℕ), c < L.length →
      (L.set c (L.getD c [] ++ [p])).flatten.Perm (L.flatten ++ [p]) := by
  intro L
  induction L with
  | nil => intro c hc; exact absurd hc (by simp)
  | cons a t ih =>
      intro c hc
      cases c with
      | zero =>
          simp only [List.set_cons_zero, List.getD_cons_zero, List.flatten_cons]
          rw [List.append_assoc, List.append_assoc]
          exact List.Perm.append_left a List.perm_append_comm
      | succ c =>
          simp only [List.set_cons_succ, List.getD_cons_succ, List.flatten_cons]
          rw [List.append_assoc]
          exact (ih c (by simpa using hc)).append_left a

lemma clusterStep_length_le (points : List Pt) (labels : ℕ → Label)
    (L : List (List Pt)) (i : ℕ) :
    L.length ≤ (clusterStep points labels L i).length := by
  unfold clusterStep
  rcases labels i with _ | _ | lab <;> simp

lemma clusterStep_join_perm (points : List Pt) (labels : ℕ → Label)
    (L : List (List Pt)) (i : ℕ)
    (h : ∀ c, labels i = Label.cluster c → c < L.length) :
    (clusterStep points labels L i).flatten.Perm (L.flatten ++ [nth points i]) := by
  unfold clusterStep
  rcases hl : labels i with _ | _ | lab
  · simp
  · simp
  · exact flatten_set_perm (nth points i) L lab (h lab hl)

lemma foldl_clusterStep_perm (points : List Pt) (labels : ℕ → Label) :
    ∀ (idxs : List ℕ) (L : List (List Pt)),
      (∀ i ∈ idxs, ∀ c, labels i = Label.cluster c → c < L.length) →
      (idxs.foldl (clusterStep points labels) L).flatten.Perm
        (L.flatten ++ idxs.map (nth points)) := by
  intro idxs
  induction idxs with
  | nil => intro L _; simp
  | cons i rest ih =>
      intro L hL
      rw [List.foldl_cons, List.map_cons]
      have hrest : ∀ a ∈ rest, ∀ c, labels a = Label.cluster c →
          c < (clusterStep points labels L i).length := by
        intro a ha c hc
        exact lt_of_lt_of_le (hL a (List.mem_cons_of_mem i ha) c hc)
          (clusterStep_length_le points labels L i)
      refine (ih (clusterStep points labels L i) hrest).trans ?_
      refine ((clusterStep_join_perm points labels L i
        (hL i (List.mem_cons_self i rest))).append_right _).trans ?_
      rw [List.append_assoc]
      exact List.Perm.refl _

lemma flatten_replicate_nil : ∀ C : ℕ, (List.replicate C ([] : List Pt)).flatten = [] := by
  intro C
  induction C with
  | zero => rfl
  | succ C ih => simpa [List.replicate_succ] using ih

lemma map_nth_range (l : List Pt) : (List.range l.length).map (nth l) = l := by
  apply List.ext_getElem (by simp)
  intro n h1 h2
  simp only [List.getElem_map, List.getElem_range, nth]
  rw [List.getD_eq_getElem l _ h2]

lemma flatten_filter_pos :
    ∀ L : List (List Pt),
      (L.filter (fun arr => decide (0 < arr.length))).flatten = L.flatten := by
  intro L
  induction L with
  | nil => rfl
  | cons hd tl ih =>
      cases hd with
      | nil => simpa [List.filter_cons] using ih
      | cons a t => simpa [List.filter_cons] using ih

lemma dbscan_flatten_perm (points : List Pt) (eps : ℚ) (minPts : ℕ) :
    (dbscan points eps minPts).flatten.Perm points := by
  unfold dbscan
  rw [flatten_filter_pos]
  have hb := dbscanState_labBound points eps minPts
  have h := foldl_clusterStep_perm points (dbscanState points eps minPts).labels
    (List.range points.length)
    (List.replicate (dbscanState points eps minPts).C [])
    (by
      intro i _ c hc
      rw [List.length_replicate]
      exact hb i c hc)
  rw [flatten_replicate_nil, List.nil_append, map_nth_range] at h
  exact h

/-- Claim C1: for every input list of observations, every `eps ≥ 0` and
every `minPts ≥ 1`, the tiles returned by the clusterer partition the
input: the concatenation of all output tiles is a permutation of the
input list, so every observation lands in exactly one tile exactly
once, none duplicated, none dropped. -/
theorem dbscan_partitions (points : List Pt) (eps : ℚ) (minPts : ℕ)
    (heps : 0 ≤ eps) (hmin : 1 ≤ minPts) :
    (dbscan points eps minPts).flatten.Perm points :=
  dbscan_flatten_perm points eps minPts

theorem dbscan_partitions_witness :
    (0 : ℚ) ≤ 10 ∧ 1 ≤ 1 ∧
      ((dbscan [⟨0,0,5⟩, ⟨5,0,5⟩, ⟨100,100,5⟩] 10 1).flatten).Perm
        [⟨0,0,5⟩, ⟨5,0,5⟩, ⟨100,100,5⟩] :=
  ⟨by norm_num, le_refl 1,
    dbscan_partitions [⟨0,0,5⟩, ⟨5,0,5⟩, ⟨100,100,5⟩] 10 1 (by norm_num) (le_refl 1)⟩

/-! ## No noise with minPts = 1 (C10) -/

lemma self_mem_regionQuery (points : List Pt) (eps : ℚ) (i : ℕ)
    (hi : i < points.length) : i ∈ regionQuery points eps i := by
  unfold regionQuery
  rw [List.mem_filter]
  refine ⟨List.mem_range.mpr hi, ?_⟩
  rw [decide_eq_true_eq]
  have hz : sqDist (nth points i) (nth points i) = 0 := by simp [sqDist]
  rw [hz]
  exact mul_self_nonneg eps

lemma dbscanLoop_visited_mono (points : List Pt) (eps : ℚ) (minPts : ℕ) :
    ∀ (l : List ℕ) (st : DState) (j : ℕ), st.visited j = true →
      (dbscanLoop points eps minPts l st).visited j = true := by
  intro l
  induction l with
  | nil => exact fun st j h => h
  | cons i rest ih =>
      intro st j hv
      simp only [dbscanLoop]
      split
      · exact ih st j hv
      · have hv1 : (markVisited st i).visited j = true := by
          dsimp only [markVisited]
          by_cases hj : j = i
          · subst hj; exact updF_self ..
          · rw [updF_ne _ _ hj]; exact hv
        split
        · exact ih _ j hv1
        · exact ih _ j (expand_visited_mono points eps minPts _ _ _ _ _ j hv1)

lemma dbscanLoop_visits (points : List Pt) (eps : ℚ) (minPts : ℕ) :
    ∀ (l : List ℕ) (st : DState) (i : ℕ), i ∈ l →
      (dbscanLoop points eps minPts l st).visited i = true := by
  intro l
  induction l with
  | nil => intro st i h; exact absurd h (List.not_mem_nil i)
  | cons a rest ih =>
      intro st i hmem
      rcases List.mem_cons.mp hmem with rfl | h
      · simp only [dbscanLoop]
        split
        · rename_i hvis
          exact dbscanLoop_visited_mono points eps minPts rest st i hvis
        · have hv1 : (markVisited st i).visited i = true := updF_self ..
          split
          · exact dbscanLoop_visited_mono points eps minPts rest _ i hv1
          · exact dbscanLoop_visited_mono points eps minPts rest _ i
              (expand_visited_mono points eps minPts _ _ _ _ _ i hv1)
      · simp only [dbscanLoop]
        split
        · exact ih st i h
        · split
          · exact ih _ i h
          · exact ih _ i h

/-- Every visited point carries a cluster label (never noise, never
`undefined`). -/
def ClusterLabeled (st : DState) : Prop :=
  ∀ j, st.visited j = true → ∃ c, st.labels j = Label.cluster c

lemma relabel_clusterLabeled (st : DState) (n clusterIdx : ℕ)
    (h : ClusterLabeled st) : ClusterLabeled (relabel st n clusterIdx) := by
  intro j hv
  rw [relabel_visited] at hv
  by_cases hj : j = n
  · subst hj; exact relabel_labels_self st j clusterIdx
  · rw [relabel_labels_other st n clusterIdx j hj]
    exact h j hv

lemma expand_clusterLabeled (points : List Pt) (eps : ℚ) (minPts clusterIdx : ℕ) :
    ∀ (fuel : ℕ) (seen pending : List ℕ) (st : DState), ClusterLabeled st →
      ClusterLabeled (expand points eps minPts clusterIdx fuel seen pending st) := by
  intro fuel
  induction fuel with
  | zero => intro _ _ st h; exact h
  | succ fuel ih =>
      intro seen pending st h
      cases pending with
      | nil => exact h
      | cons n rest =>
          simp only [expand]
          split
          · exact ih _ _ _ (relabel_clusterLabeled st n clusterIdx h)
          · have h1 : ClusterLabeled (relabel (markVisited st n) n clusterIdx) := by
              intro j hv
              rw [relabel_visited] at hv
              by_cases hj : j = n
              · subst hj; exact relabel_labels_self ..
              · dsimp only [markVisited] at hv
                rw [updF_ne _ _ hj] at hv
                rw [relabel_labels_other _ _ _ _ hj]
                exact h j hv
            split
            · exact ih _ _ _ h1
            · exact ih _ _ _ h1

lemma dbscanLoop_clusterLabeled (points : List Pt) (eps : ℚ) :
    ∀ (l : List ℕ) (st : DState), (∀ i ∈ l, i < points.length) →
      ClusterLabeled st → ClusterLabeled (dbscanLoop points eps 1 l st) := by
  intro l
  induction l with
  | nil => intro st _ h; exact h
  | cons i rest ih =>
      intro st hl h
      simp only [dbscanLoop]
      split
      · exact ih st (fun a ha => hl a (List.mem_cons_of_mem i ha)) h
      · split
        · rename_i hlen
          exfalso
          have hmem := self_mem_regionQuery points eps i (hl i (List.mem_cons_self i rest))
          have hpos : 0 < (regionQuery points eps i).length :=
            List.length_pos.mpr (List.ne_nil_of_mem hmem)
          omega
        · refine ih _ (fun a ha => hl a (List.mem_cons_of_mem i ha)) ?_
          apply expand_clusterLabeled
          intro j hv
          dsimp only [markVisited] at hv ⊢
          by_cases hj : j = i
          · subst hj
            exact ⟨st.C, updF_self ..⟩
          · rw [updF_ne _ _ hj] at hv
            rw [updF_ne _ _ hj]
            exact h j hv

/-- Claim C10: with `minPts = 1` the noise branch is unreachable — after
the main loop every point index holds a cluster label (never `-1`, never
`undefined`, so the post-hoc singleton-promotion branch has nothing to
promote), and consequently every observation lands in some output tile. -/
theorem minPts_one_no_noise (points : List Pt) (eps : ℚ) (i : ℕ)
    (hi : i < points.length) :
    (∃ c, (dbscanState points eps 1).labels i = Label.cluster c) ∧
      nth points i ∈ (dbscan points eps 1).flatten := by
  have hvis : (dbscanState points eps 1).visited i = true :=
    dbscanLoop_visits points eps 1 (List.range points.length) initState i
      (List.mem_range.mpr hi)
  constructor
  · exact dbscanLoop_clusterLabeled points eps (List.range points.length) initState
      (fun a ha => List.mem_range.mp ha) (fun j h => Bool.noConfusion h) i hvis
  · have hperm := dbscan_flatten_perm points eps 1
    have hmem : nth points i ∈ points := by
      rw [nth, List.getD_eq_getElem points _ hi]
      exact List.getElem_mem hi
    exact hperm.mem_iff.mpr hmem

theorem minPts_one_no_noise_witness :
    0 < ([⟨0,0,1⟩] : List Pt).length ∧
      ((∃ c, (dbscanState [⟨0,0,1⟩] 0 1).labels 0 = Label.cluster c) ∧
        nth [⟨0,0,1⟩] 0 ∈ (dbscan [⟨0,0,1⟩] 0 1).flatten) :=
  ⟨by norm_num, minPts_one_no_noise [⟨0,0,1⟩] 0 0 (by norm_num)⟩

/-! ## Output order of the clusterer (C6) -/

/-- Spec-side description (§4.2 step 5): the cluster tiles, one per
cluster id in ascending id order, each listing its members in input
order. -/
def clusterTiles (points : List Pt) (labels : ℕ → Label) (C : ℕ) : List (List Pt) :=
  (List.range C).map (fun c =>
    ((List.range points.length).filter
        (fun i => decide (labels i = Label.cluster c))).map (nth points))

/-- Spec-side description (§4.2 step 4/5): the promoted singleton tiles,
one per `undefined`-or-noise point, in input order. -/
def noiseTiles (points : List Pt) (labels : ℕ → Label) : List (List Pt) :=
  ((List.range points.length).filter
      (fun i => decide (labels i = Label.undef ∨ labels i = Label.noise))).map
    (fun i => [nth points i])

lemma getD_map_range (g : ℕ → List Pt) (C c : ℕ) (hc : c < C) :
    ((List.range C).map g).getD c [] = g c := by
  rw [List.getD_eq_getElem _ _ (by simpa using hc)]
  simp

lemma getD_append_left' (l l' : List (List Pt)) (n : ℕ) (h : n < l.length) :
    (l ++ l').getD n [] = l.getD n [] := by
  rw [List.getD_eq_getElem _ _ (by simp; omega), List.getD_eq_getElem _ _ h]
  exact List.getElem_append_left ..

lemma map_range_set (g : ℕ → List Pt) (C c : ℕ) (v : List Pt) (hc : c < C) :
    ((List.range C).map g).set c v
      = (List.range C).map (fun x => if x = c then v else g x) := by
  apply List.ext_getElem (by simp)
  intro n h1 h2
  rw [List.getElem_set]
  simp only [List.getElem_map, List.getElem_range]
  rcases eq_or_ne n c with rfl | h
  · simp
  · simp [h, Ne.symm h]

lemma buildClusters_aux (points : List Pt) (labels : ℕ → Label) (C : ℕ)
    (hb : ∀ i c, labels i = Label.cluster c → c < C) :
    ∀ k : ℕ,
      (List.range k).foldl (clusterStep points labels) (List.replicate C [])
        = (List.range C).map (fun c =>
            ((List.range k).filter
                (fun i => decide (labels i = Label.cluster c))).map (nth points))
          ++ ((List.range k).filter
              (fun i => decide (labels i = Label.undef ∨ labels i = Label.noise))).map
            (fun i => [nth points i]) := by
  intro k
  induction k with
  | zero =>
      apply List.ext_getElem (by simp)
      intro n h1 h2
      simp
  | succ k ih =>
      rw [List.range_succ, List.foldl_append, List.foldl_cons, List.foldl_nil, ih]
      unfold clusterStep
      rcases hk : labels k with _ | _ | c0
      · dsimp only
        rw [List.append_assoc]
        congr 1
        · apply List.map_congr_left
          intro c _
          congr 1
          rw [List.filter_append]
          simp [hk]
        · rw [List.filter_append]
          simp [hk]
      · dsimp only
        rw [List.append_assoc]
        congr 1
        · apply List.map_congr_left
          intro c _
          congr 1
          rw [List.filter_append]
          simp [hk]
        · rw [List.filter_append]
          simp [hk]
      · dsimp only
        have hc0 : c0 < C := hb k c0 hk
        have hlen : c0 < ((List.range C).map (fun c =>
            ((List.range k).filter
                (fun i => decide (labels i = Label.cluster c))).map
              (nth points))).length := by simpa using hc0
        rw [getD_append_left' _ _ _ hlen, getD_map_range _ _ _ hc0,
          List.set_append_left _ _ hlen, map_range_set _ _ _ _ hc0]
        congr 1
        · apply List.map_congr_left
          intro c _
          rw [List.filter_append]
          by_cases hcc : c = c0
          · subst hcc
            simp [hk]
          · simp [hk, hcc, Ne.symm hcc]
        · rw [List.filter_append]
          simp [hk]

lemma buildClusters_eq (points : List Pt) (labels : ℕ → Label) (C : ℕ)
    (hb : ∀ i c, labels i = Label.cluster c → c < C) :
    buildClusters points labels C
      = clusterTiles points labels C ++ noiseTiles points labels :=
  buildClusters_aux points labels C hb points.length

lemma noiseTiles_filter_pos (points : List Pt) (labels : ℕ → Label) :
    (noiseTiles points labels).filter (fun arr => decide (0 < arr.length))
      = noiseTiles points labels := by
  apply List.filter_eq_self.mpr
  intro a ha
  rcases List.mem_map.mp ha with ⟨i, _, rfl⟩
  simp

/-- Claim C6: the clusterer's output is exactly the cluster tiles in
ascending cluster-id (creation) order — with empty id groups dropped —
followed by the promoted singleton tiles in their original input-point
order; and the output never contains an empty tile. -/
theorem dbscan_output_order (points : List Pt) (eps : ℚ) (minPts : ℕ) :
    dbscan points eps minPts
        = (clusterTiles points (dbscanState points eps minPts).labels
              (dbscanState points eps minPts).C).filter
            (fun arr => decide (0 < arr.length))
          ++ noiseTiles points (dbscanState points eps minPts).labels ∧
      [] ∉ dbscan points eps minPts := by
  constructor
  · unfold dbscan
    rw [buildClusters_eq _ _ _ (dbscanState_labBound points eps minPts),
      List.filter_append, noiseTiles_filter_pos]
  · intro hmem
    unfold dbscan at hmem
    rw [List.mem_filter] at hmem
    simp at hmem

/-! ## eps = 0 (C5) -/

/-- Counterexample to claim C5 as stated: with `eps = 0` a point is NOT
always "its own neighbour only" — two coincident input points are
neighbours of each other (distance 0 ≤ 0), so they form one tile of
two, not two singleton tiles. -/
theorem eps_zero_duplicate_points :
    dbscan [⟨0,0,1⟩, ⟨0,0,1⟩] 0 1 = [[⟨0,0,1⟩, ⟨0,0,1⟩]] ∧
      (dbscan [⟨0,0,1⟩, ⟨0,0,1⟩] 0 1).length = 1 := by
  with_unfolding_all decide

lemma filter_range_eq_self (N i : ℕ) (hi : i < N) :
    (List.range N).filter (fun j => decide (j = i)) = [i] := by
  induction N with
  | zero => omega
  | succ N ihN =>
      rw [List.range_succ, List.filter_append]
      rcases eq_or_ne i N with rfl | hne
      · rw [List.filter_eq_nil_iff.mpr ?_]
        · simp
        · intro a ha
          simp only [List.mem_range] at ha
          simp
          omega
      · rw [ihN (by omega)]
        simp [Ne.symm hne]

lemma sqDist_le_zero_iff (p q : Pt) : sqDist p q ≤ 0 ↔ (p.x = q.x ∧ p.y = q.y) := by
  unfold sqDist
  constructor
  · intro h
    have h1 : (p.x - q.x) * (p.x - q.x) = 0 := by
      nlinarith [mul_self_nonneg (p.x - q.x), mul_self_nonneg (p.y - q.y)]
    have h2 : (p.y - q.y) * (p.y - q.y) = 0 := by
      nlinarith [mul_self_nonneg (p.x - q.x), mul_self_nonneg (p.y - q.y)]
    constructor
    · have := mul_self_eq_zero.mp h1; linarith
    · have := mul_self_eq_zero.mp h2; linarith
  · rintro ⟨h1, h2⟩
    rw [h1, h2]
    simp

lemma regionQuery_eps_zero (points : List Pt) (i : ℕ) (hi : i < points.length)
    (hdist : ∀ j, j < points.length → j ≠ i →
      (nth points i).x ≠ (nth points j).x ∨ (nth points i).y ≠ (nth points j).y) :
    regionQuery points 0 i = [i] := by
  unfold regionQuery
  rw [← filter_range_eq_self points.length i hi]
  apply List.filter_congr
  intro j hj
  rw [List.mem_range] at hj
  rcases eq_or_ne j i with rfl | hne
  · simp [sqDist]
  · have hd := hdist j hj hne
    have hgt : ¬ (sqDist (nth points i) (nth points j) ≤ 0) := by
      rw [sqDist_le_zero_iff]
      tauto
    have hpos : 0 < sqDist (nth points i) (nth points j) := not_le.mp hgt
    simp [hne, hpos]

lemma addSeeds_nil_singleton (k : ℕ) : addSeeds ([], []) [k] = ([k], [k]) := by
  simp [addSeeds, addSeed]

lemma expand_pending_nil (points : List Pt) (eps : ℚ) (minPts clusterIdx : ℕ)
    (fuel : ℕ) (seen : List ℕ) (st : DState) :
    expand points eps minPts clusterIdx fuel seen [] st = st := by
  cases fuel <;> rfl

lemma dbscanLoop_singletons (points : List Pt)
    (hrq : ∀ i, i < points.length → regionQuery points 0 i = [i]) :
    ∀ (m k : ℕ) (st : DState), k + m ≤ points.length →
      st.C = k →
      (∀ j, k ≤ j → st.visited j = false) →
      ((dbscanLoop points 0 1 (List.range' k m) st).C = k + m ∧
        (∀ j, (dbscanLoop points 0 1 (List.range' k m) st).labels j
            = if k ≤ j ∧ j < k + m then Label.cluster j else st.labels j)) := by
  intro m
  induction m with
  | zero =>
      intro k st hkm hC hvis
      refine ⟨by simpa using hC, ?_⟩
      intro j
      simp only [List.range'_zero, dbscanLoop]
      rw [if_neg (by omega)]
  | succ m ihm =>
      intro k st hkm hC hvis
      rw [List.range'_succ]
      simp only [dbscanLoop]
      split
      · rename_i hcontr
        rw [hvis k le_rfl] at hcontr
        exact Bool.noConfusion hcontr
      · rw [hrq k (by omega)]
        split
        · rename_i hlen
          simp at hlen
        · rw [addSeeds_nil_singleton, List.erase_cons_head, expand_pending_nil]
          have hC2 : ({ markVisited st k with
              labels := updF (markVisited st k).labels k
                (Label.cluster (markVisited st k).C),
              C := (markVisited st k).C + 1 } : DState).C = k + 1 := by
            dsimp only [markVisited]
            omega
          have hvis2 : ∀ j, k + 1 ≤ j → ({ markVisited st k with
              labels := updF (markVisited st k).labels k
                (Label.cluster (markVisited st k).C),
              C := (markVisited st k).C + 1 } : DState).visited j = false := by
            intro j hj
            dsimp only [markVisited]
            rw [updF_ne _ _ (by omega)]
            exact hvis j (by omega)
          obtain ⟨h1, h2⟩ := ihm (k + 1) _ (by omega) hC2 hvis2
          constructor
          · rw [h1]; omega
          · intro j
            rw [h2 j]
            by_cases hrange : k + 1 ≤ j ∧ j < k + 1 + m
            · rw [if_pos hrange, if_pos (by omega)]
            · rw [if_neg hrange]
              dsimp only [markVisited]
              by_cases hjk : j = k
              · subst hjk
                rw [updF_self, if_pos (by omega), hC]
              · rw [updF_ne _ _ hjk]
                by_cases hout : k ≤ j ∧ j < k + (m + 1)
                · exact absurd ⟨by omega, by omega⟩ hrange
                · rw [if_neg hout]

/-- Claim C5, amended: with `eps = 0` and `minPts = 1`, if the input
points are pairwise distinct (no two share both coordinates) then every
point is its own neighbour only, becomes a core point and forms its own
cluster, so the clusterer outputs exactly one singleton tile per input
point, in input order.  (The distinctness hypothesis is necessary:
coincident points at distance 0 share a tile.) -/
theorem eps_zero_distinct_singletons (points : List Pt)
    (hdist : ∀ i, i < points.length → ∀ j, j < points.length → j ≠ i →
      (nth points i).x ≠ (nth points j).x ∨ (nth points i).y ≠ (nth points j).y) :
    dbscan points 0 1 = points.map (fun p => [p]) := by
  have hrq : ∀ i, i < points.length → regionQuery points 0 i = [i] := fun i hi =>
    regionQuery_eps_zero points i hi (hdist i hi)
  have hloop := dbscanLoop_singletons points hrq points.length 0 initState
    (by omega) rfl (fun j _ => rfl)
  rw [← List.range_eq_range'] at hloop
  obtain ⟨hC, hlab⟩ := hloop
  have hC' : (dbscanState points 0 1).C = points.length := by simpa using hC
  have hlab' : ∀ j, (dbscanState points 0 1).labels j
      = if j < points.length then Label.cluster j else Label.undef := by
    intro j
    have := hlab j
    simp only [Nat.zero_add, Nat.zero_le, true_and] at this
    exact this
  have hb : ∀ i c, (dbscanState points 0 1).labels i = Label.cluster c →
      c < (dbscanState points 0 1).C := by
    intro i c h
    rw [hlab' i] at h
    by_cases hi : i < points.length
    · rw [if_pos hi] at h
      cases h
      omega
    · rw [if_neg hi] at h
      exact Label.noConfusion h
  unfold dbscan
  rw [buildClusters_eq _ _ _ hb]
  have hnoise : noiseTiles points (dbscanState points 0 1).labels = [] := by
    unfold noiseTiles
    rw [List.filter_eq_nil_iff.mpr, List.map_nil]
    intro a ha
    rw [List.mem_range] at ha
    rw [hlab' a, if_pos ha]
    simp
  rw [hnoise, List.append_nil]
  have hct : clusterTiles points (dbscanState points 0 1).labels
      (dbscanState points 0 1).C = points.map (fun p => [p]) := by
    unfold clusterTiles
    rw [hC']
    have hmapc : ∀ c ∈ List.range points.length,
        ((List.range points.length).filter
            (fun i => decide ((dbscanState points 0 1).labels i
              = Label.cluster c))).map (nth points)
          = [nth points c] := by
      intro c hc
      rw [List.mem_range] at hc
      have hfc : (List.range points.length).filter
          (fun i => decide ((dbscanState points 0 1).labels i = Label.cluster c))
            = [c] := by
        rw [← filter_range_eq_self points.length c hc]
        apply List.filter_congr
        intro j hj
        rw [List.mem_range] at hj
        rw [hlab' j, if_pos hj]
        simp
      rw [hfc]
      rfl
    rw [List.map_congr_left hmapc,
      show (List.range points.length).map (fun c => [nth points c])
        = ((List.range points.length).map (nth points)).map (fun p => [p]) from
          (List.map_map (fun p => [p]) (nth points) (List.range points.length)).symm,
      map_nth_range]
  rw [hct]
  apply List.filter_eq_self.mpr
  intro a ha
  rcases List.mem_map.mp ha with ⟨p, _, rfl⟩
  simp

theorem eps_zero_distinct_singletons_witness :
    (∀ i, i < ([⟨0,0,1⟩, ⟨1,0,1⟩, ⟨2,0,1⟩, ⟨3,0,1⟩] : List Pt).length →
      ∀ j, j < ([⟨0,0,1⟩, ⟨1,0,1⟩, ⟨2,0,1⟩, ⟨3,0,1⟩] : List Pt).length → j ≠ i →
        (nth [⟨0,0,1⟩, ⟨1,0,1⟩, ⟨2,0,1⟩, ⟨3,0,1⟩] i).x
            ≠ (nth [⟨0,0,1⟩, ⟨1,0,1⟩, ⟨2,0,1⟩, ⟨3,0,1⟩] j).x ∨
          (nth [⟨0,0,1⟩, ⟨1,0,1⟩, ⟨2,0,1⟩, ⟨3,0,1⟩] i).y
            ≠ (nth [⟨0,0,1⟩, ⟨1,0,1⟩, ⟨2,0,1⟩, ⟨3,0,1⟩] j).y) ∧
      dbscan [⟨0,0,1⟩, ⟨1,0,1⟩, ⟨2,0,1⟩, ⟨3,0,1⟩] 0 1
        = [[⟨0,0,1⟩], [⟨1,0,1⟩], [⟨2,0,1⟩], [⟨3,0,1⟩]] :=
  ⟨by with_unfolding_all decide,
    eps_zero_distinct_singletons [⟨0,0,1⟩, ⟨1,0,1⟩, ⟨2,0,1⟩, ⟨3,0,1⟩]
      (by with_unfolding_all decide)⟩

/-! ## Fuel adequacy for the frontier expansion

The JS `for (const n of seeds)` loop needs no fuel; the embedding's
`expand` takes a bound.  The lemmas below show the result is the same
for every fuel at least `expandMeas` (each iteration pops one pending
element and appends at most as many as it removes from the unseen-index
pool), and that the `2 * N + 1` passed by `dbscanLoop` always exceeds
that measure — so the embedded `expand` never stops early. -/

/-- An upper bound on the iterations `expand` can still perform: pending
elements plus indices below `N` not yet in the set. -/
def expandMeas (N : ℕ) (seen pending : List ℕ) : ℕ :=
  pending.length + ((List.range N).filter (fun j => decide (j ∉ seen))).length

lemma filter_notmem_append_length (seen : List ℕ) (x : ℕ) (hx : x ∉ seen) :
    ∀ N : ℕ,
      ((List.range N).filter (fun j => decide (j ∉ seen))).length
        = ((List.range N).filter (fun j => decide (j ∉ seen ++ [x]))).length
          + (if x < N then 1 else 0) := by
  intro N
  induction N with
  | zero => simp
  | succ N ih =>
      rw [List.range_succ, List.filter_append, List.filter_append,
        List.length_append, List.length_append, ih]
      rcases eq_or_ne N x with rfl | hne
      · have h1 : ([N].filter (fun j => decide (j ∉ seen))) = [N] := by simp [hx]
        have h2 : ([N].filter (fun j => decide (j ∉ seen ++ [N]))) = ([] : List ℕ) := by
          simp
        rw [h1, h2, if_neg (lt_irrefl N), if_pos (Nat.lt_succ_self N)]
        simp
      · have h12 : ([N].filter (fun j => decide (j ∉ seen ++ [x])))
            = ([N].filter (fun j => decide (j ∉ seen))) := by
          apply List.filter_congr
          intro a ha
          rw [List.mem_singleton] at ha
          subst ha
          simp [hne]
        have hiff : (if x < N + 1 then 1 else 0) = (if x < N then 1 else 0) := by
          by_cases hxN : x < N
          · rw [if_pos hxN, if_pos (by omega)]
          · rw [if_neg hxN, if_neg (by omega)]
        rw [h12, hiff]
        omega

lemma addSeed_meas (N : ℕ) (sp : List ℕ × List ℕ) (x : ℕ) (hx : x < N) :
    expandMeas N (addSeed sp x).1 (addSeed sp x).2 = expandMeas N sp.1 sp.2 := by
  unfold addSeed
  split
  · rfl
  · rename_i hmem
    unfold expandMeas
    dsimp only
    rw [List.length_append, filter_notmem_append_length sp.1 x hmem N, if_pos hx]
    simp
    omega

lemma addSeeds_meas (N : ℕ) : ∀ (xs : List ℕ) (sp : List ℕ × List ℕ),
    (∀ x ∈ xs, x < N) →
    expandMeas N (addSeeds sp xs).1 (addSeeds sp xs).2 = expandMeas N sp.1 sp.2 := by
  intro xs
  induction xs with
  | nil => intro sp _; rfl
  | cons x rest ih =>
      intro sp hxs
      show expandMeas N (addSeeds (addSeed sp x) rest).1
          (addSeeds (addSeed sp x) rest).2 = _
      rw [ih (addSeed sp x) (fun a ha => hxs a (List.mem_cons_of_mem x ha))]
      exact addSeed_meas N sp x (hxs x (List.mem_cons_self x rest))

lemma regionQuery_lt (points : List Pt) (eps : ℚ) (i : ℕ) :
    ∀ j ∈ regionQuery points eps i, j < points.length := by
  intro j hj
  unfold regionQuery at hj
  exact List.mem_range.mp (List.mem_filter.mp hj).1

lemma expand_fuel_succ (points : List Pt) (eps : ℚ) (minPts clusterIdx : ℕ) :
    ∀ (fuel : ℕ) (seen pending : List ℕ) (st : DState),
      expandMeas points.length seen pending ≤ fuel →
      expand points eps minPts clusterIdx (fuel + 1) seen pending st
        = expand points eps minPts clusterIdx fuel seen pending st := by
  intro fuel
  induction fuel with
  | zero =>
      intro seen pending st hm
      have hnil : pending = [] := by
        unfold expandMeas at hm
        cases pending with
        | nil => rfl
        | cons a l => simp at hm
      subst hnil
      rfl
  | succ fuel ih =>
      intro seen pending st hm
      cases pending with
      | nil => rfl
      | cons n rest =>
          have hrest : expandMeas points.length seen rest ≤ fuel := by
            unfold expandMeas at hm ⊢
            simp only [List.length_cons] at hm
            omega
          simp only [expand]
          split
          · exact ih seen rest _ hrest
          · split
            · refine ih _ _ _ ?_
              rw [addSeeds_meas points.length (regionQuery points eps n) (seen, rest)
                (regionQuery_lt points eps n)]
              exact hrest
            · exact ih seen rest _ hrest

lemma expand_fuel_ge (points : List Pt) (eps : ℚ) (minPts clusterIdx : ℕ) :
    ∀ (f : ℕ) (seen pending : List ℕ) (st : DState),
      expandMeas points.length seen pending ≤ f →
      expand points eps minPts clusterIdx f seen pending st
        = expand points eps minPts clusterIdx
            (expandMeas points.length seen pending) seen pending st := by
  intro f
  induction f with
  | zero =>
      intro seen pending st hm
      rw [Nat.le_zero.mp hm]
  | succ f ihf =>
      intro seen pending st hm
      rcases Nat.lt_or_ge f (expandMeas points.length seen pending) with hlt | hge
      · have heq : expandMeas points.length seen pending = f + 1 := by omega
        rw [heq]
      · rw [expand_fuel_succ points eps minPts clusterIdx f seen pending st hge]
        exact ihf seen pending st hge

/-- Any two sufficient fuels give the same expansion result: the
embedded loop is fuel-insensitive beyond the measure. -/
lemma expand_fuel_irrelevant (points : List Pt) (eps : ℚ) (minPts clusterIdx : ℕ)
    (f1 f2 : ℕ) (seen pending : List ℕ) (st : DState)
    (h1 : expandMeas points.length seen pending ≤ f1)
    (h2 : expandMeas points.length seen pending ≤ f2) :
    expand points eps minPts clusterIdx f1 seen pending st
      = expand points eps minPts clusterIdx f2 seen pending st := by
  rw [expand_fuel_ge points eps minPts clusterIdx f1 seen pending st h1,
    expand_fuel_ge points eps minPts clusterIdx f2 seen pending st h2]

lemma addSeeds_snd_length : ∀ (xs : List ℕ) (sp : List ℕ × List ℕ),
    (addSeeds sp xs).2.length ≤ sp.2.length + xs.length := by
  intro xs
  induction xs with
  | nil => intro sp; simp [addSeeds]
  | cons x rest ih =>
      intro sp
      have hstep : (addSeed sp x).2.length ≤ sp.2.length + 1 := by
        unfold addSeed
        split
        · omega
        · simp
      calc (addSeeds (addSeed sp x) rest).2.length
          ≤ (addSeed sp x).2.length + rest.length := ih (addSeed sp x)
        _ ≤ sp.2.length + 1 + rest.length := by omega
        _ = sp.2.length + (x :: rest).length := by simp; omega

/-- The fuel `2 * N + 1` handed to `expand` by `dbscanLoop` always
exceeds the measure of the freshly-built seed set, so the embedded
expansion runs to completion exactly like the JS loop. -/
lemma dbscan_fuel_ample (points : List Pt) (eps : ℚ) (i : ℕ) :
    expandMeas points.length
        ((addSeeds ([], []) (regionQuery points eps i)).1.erase i)
        ((addSeeds ([], []) (regionQuery points eps i)).2.erase i)
      ≤ 2 * points.length + 1 := by
  unfold expandMeas
  have h1 : ((addSeeds ([], []) (regionQuery points eps i)).2.erase i).length
      ≤ points.length := by
    calc ((addSeeds ([], []) (regionQuery points eps i)).2.erase i).length
        ≤ (addSeeds ([], []) (regionQuery points eps i)).2.length :=
          (List.erase_sublist ..).length_le
      _ ≤ ([] : List ℕ).length + (regionQuery points eps i).length :=
          addSeeds_snd_length (regionQuery points eps i) ([], [])
      _ = (regionQuery points eps i).length := by simp
      _ ≤ (List.range points.length).length := List.length_filter_le _ _
      _ = points.length := List.length_range _
  have h2 : ((List.range points.length).filter
      (fun j => decide (j ∉ (addSeeds ([], []) (regionQuery points eps i)).1.erase i))).length
        ≤ points.length := by
    calc ((List.range points.length).filter
        (fun j => decide (j ∉ (addSeeds ([], []) (regionQuery points eps i)).1.erase i))).length
        ≤ (List.range points.length).length := List.length_filter_le _ _
      _ = points.length := List.length_range _
  omega

end Domino
